import Mathlib

/-!
Shallow embedding of the fixed-point quantization module
(`src/fixed_point.py`) of the ResearchTool repository.

Reals are modelled by `ℚ`; Python arbitrary-precision integers by `ℤ`;
fallible functions (Python `raise ValueError`) return `Except String`.
Python `%` on integers is Euclidean remainder for a positive modulus,
matching `Int.emod`; Python `>>` on `int` is an arithmetic right shift,
i.e. floor division by a power of two, matching `Int.shiftRight`.
-/

deriving instance DecidableEq for Except

namespace FixedPoint

/-- Embeds the `FixedFormat` dataclass: total width `W`, fractional
width `F`, `signed` selects the two's-complement interpretation. -/
structure FixedFormat where
  W : ℕ
  F : ℕ
  signed : Bool := true
deriving Repr, DecidableEq

/-- Embeds `FixedFormat.scale`, i.e. `1 << self.F`. -/
def FixedFormat.scale (fmt : FixedFormat) : ℤ := 2 ^ fmt.F

/-- Embeds `FixedFormat.modulus`, i.e. `1 << self.W`. -/
def FixedFormat.modulus (fmt : FixedFormat) : ℤ := 2 ^ fmt.W

/-- Embeds `FixedFormat.min_int`: `-(1 << (W-1))` if signed else `0`. -/
def FixedFormat.min_int (fmt : FixedFormat) : ℤ :=
  if fmt.signed then -(2 ^ (fmt.W - 1)) else 0

/-- Embeds `FixedFormat.max_int`: `(1 << (W-1)) - 1` if signed else `(1 << W) - 1`. -/
def FixedFormat.max_int (fmt : FixedFormat) : ℤ :=
  if fmt.signed then 2 ^ (fmt.W - 1) - 1 else 2 ^ fmt.W - 1

/-- Embeds `FixedFormat.resolution`, i.e. `1.0 / self.scale`. -/
def FixedFormat.resolution (fmt : FixedFormat) : ℚ := 1 / (fmt.scale : ℚ)

/-- Embeds `FixedFormat.min_real`, i.e. `self.min_int / self.scale`. -/
def FixedFormat.min_real (fmt : FixedFormat) : ℚ :=
  (fmt.min_int : ℚ) / (fmt.scale : ℚ)

/-- Embeds `FixedFormat.max_real`, i.e. `self.max_int / self.scale`. -/
def FixedFormat.max_real (fmt : FixedFormat) : ℚ :=
  (fmt.max_int : ℚ) / (fmt.scale : ℚ)

/-- Embeds Python `round` (restricted to rationals): round to the
nearest integer, ties to the nearest even integer. -/
def roundHalfEven (y : ℚ) : ℤ :=
  if y - (⌊y⌋ : ℚ) < 1 / 2 then ⌊y⌋
  else if (1 : ℚ) / 2 < y - (⌊y⌋ : ℚ) then ⌊y⌋ + 1
  else if ⌊y⌋ % 2 = 0 then ⌊y⌋ else ⌊y⌋ + 1

/-- Embeds `_round_to_int`: multiply by `2^F`, then round per the token;
an unknown token raises `ValueError`. -/
def _round_to_int (x : ℚ) (fmt : FixedFormat) (rounding : String) :
    Except String ℤ :=
  let y := x * (fmt.scale : ℚ)
  if rounding = "nearest" then Except.ok (roundHalfEven y)
  else if rounding = "floor" then Except.ok ⌊y⌋
  else if rounding = "ceil" then Except.ok ⌈y⌉
  else Except.error "rounding must be one of nearest, floor, ceil"

/-- The fold shared by the `wrap` branch of `_apply_overflow` and by
`int_to_real`: `qi % modulus`, then if signed and `≥ 2^(W-1)` subtract
the modulus. -/
def twosFold (qi : ℤ) (fmt : FixedFormat) : ℤ :=
  let q := qi % fmt.modulus
  if fmt.signed = true ∧ 2 ^ (fmt.W - 1) ≤ q then q - fmt.modulus else q

/-- Embeds `_apply_overflow`: `wrap` folds into the two's-complement
range, `saturate` clamps into `[min_int, max_int]`; an unknown token
raises `ValueError`. -/
def _apply_overflow (qi : ℤ) (fmt : FixedFormat) (overflow : String) :
    Except String ℤ :=
  if overflow = "wrap" then Except.ok (twosFold qi fmt)
  else if overflow = "saturate" then
    Except.ok (max fmt.min_int (min fmt.max_int qi))
  else Except.error "overflow must be wrap or saturate"

/-- Embeds `int_to_real`: fold into the two's-complement range, divide
by the scale. -/
def int_to_real (qi : ℤ) (fmt : FixedFormat) : ℚ :=
  ((twosFold qi fmt : ℤ) : ℚ) / (fmt.scale : ℚ)

/-- Embeds `int_to_hex`: reinterpret `qi` as unsigned, render as
uppercase hexadecimal zero-padded to `(W + 3) / 4` nibbles, `0x`-prefixed. -/
def int_to_hex (qi : ℤ) (fmt : FixedFormat) : String :=
  let u := (qi % fmt.modulus).toNat
  let width_nibbles := (fmt.W + 3) / 4
  let ds := (Nat.toDigits 16 u).map Char.toUpper
  "0x" ++ String.mk (List.replicate (width_nibbles - ds.length) '0' ++ ds)

/-- Quantizes and constrains one operand, as in the first statements of
`add` and `mul`; exceptions propagate as in Python. -/
def quantizeInt (x : ℚ) (fmt : FixedFormat) (overflow rounding : String) :
    Except String ℤ :=
  match _round_to_int x fmt rounding with
  | Except.error e => Except.error e
  | Except.ok q0 => _apply_overflow q0 fmt overflow

/-- Embeds `quantize`: round, constrain, decode to real and hex. -/
def quantize (x : ℚ) (fmt : FixedFormat) (overflow rounding : String) :
    Except String (ℤ × ℚ × String) :=
  match quantizeInt x fmt overflow rounding with
  | Except.error e => Except.error e
  | Except.ok qi => Except.ok (qi, int_to_real qi fmt, int_to_hex qi fmt)

/-- Embeds `add`: quantize and constrain each operand, sum, constrain
the sum, decode. -/
def add (a b : ℚ) (fmt : FixedFormat) (overflow rounding : String) :
    Except String (ℤ × ℚ × String) :=
  match quantizeInt a fmt overflow rounding with
  | Except.error e => Except.error e
  | Except.ok ai =>
    match quantizeInt b fmt overflow rounding with
    | Except.error e => Except.error e
    | Except.ok bi =>
      match _apply_overflow (ai + bi) fmt overflow with
      | Except.error e => Except.error e
      | Except.ok si => Except.ok (si, int_to_real si fmt, int_to_hex si fmt)

/-- Embeds `mul`: quantize and constrain each operand, take the exact
integer product, add the symmetric bias `1 << (F - 1)`, arithmetic
right shift by `F`, constrain, decode. Python evaluates `1 << (F - 1)`,
which raises `ValueError` (negative shift count) when `F = 0`. -/
def mul (a b : ℚ) (fmt : FixedFormat) (overflow rounding : String) :
    Except String (ℤ × ℚ × String) :=
  match quantizeInt a fmt overflow rounding with
  | Except.error e => Except.error e
  | Except.ok ai =>
    match quantizeInt b fmt overflow rounding with
    | Except.error e => Except.error e
    | Except.ok bi =>
      if fmt.F = 0 then Except.error "negative shift count" else
      match _apply_overflow (Int.shiftRight
          (if 0 ≤ ai * bi then ai * bi + 2 ^ (fmt.F - 1)
           else ai * bi - 2 ^ (fmt.F - 1)) fmt.F) fmt overflow with
      | Except.error e => Except.error e
      | Except.ok qi => Except.ok (qi, int_to_real qi fmt, int_to_hex qi fmt)

/-- The overflow tokens accepted by `_apply_overflow`. -/
def validOverflow (o : String) : Prop := o = "wrap" ∨ o = "saturate"

/-- The rounding tokens accepted by `_round_to_int`. -/
def validRounding (r : String) : Prop := r = "nearest" ∨ r = "floor" ∨ r = "ceil"

/-! Basic facts about the embedded definitions. -/

/-- Restates `twosFold` without the local binding. -/
theorem twosFold_def (qi : ℤ) (fmt : FixedFormat) :
    twosFold qi fmt =
      if fmt.signed = true ∧ 2 ^ (fmt.W - 1) ≤ qi % fmt.modulus
      then qi % fmt.modulus - fmt.modulus else qi % fmt.modulus := rfl

/-- Scale is positive. -/
theorem scale_pos (fmt : FixedFormat) : 0 < fmt.scale := by
  unfold FixedFormat.scale
  exact pow_pos (by norm_num) fmt.F

/-- Modulus is positive. -/
theorem modulus_pos (fmt : FixedFormat) : 0 < fmt.modulus := by
  unfold FixedFormat.modulus
  exact pow_pos (by norm_num) fmt.W

/-- The representable range is never empty. -/
theorem min_int_le_max_int (fmt : FixedFormat) : fmt.min_int ≤ fmt.max_int := by
  have h : (0:ℤ) < 2 ^ (fmt.W - 1) := pow_pos (by norm_num) _
  have h2 : (0:ℤ) < 2 ^ fmt.W := pow_pos (by norm_num) _
  unfold FixedFormat.min_int FixedFormat.max_int
  split <;> omega

/-- With `W ≥ 1` the modulus is twice the half modulus. -/
theorem modulus_eq_two_mul (fmt : FixedFormat) (hW : 1 ≤ fmt.W) :
    fmt.modulus = 2 ^ (fmt.W - 1) * 2 := by
  unfold FixedFormat.modulus
  rw [← pow_succ]
  congr 1
  omega

/-- Rounding an integer-valued rational is the identity. -/
theorem roundHalfEven_intCast (n : ℤ) : roundHalfEven (n : ℚ) = n := by
  simp [roundHalfEven]

/-- The rounded value is the floor or the floor plus one. -/
theorem roundHalfEven_eq_floor_or (y : ℚ) :
    roundHalfEven y = ⌊y⌋ ∨ roundHalfEven y = ⌊y⌋ + 1 := by
  unfold roundHalfEven
  split_ifs <;> simp

/-- Rounding error of `roundHalfEven` is at most one half. -/
theorem abs_roundHalfEven_sub_le (y : ℚ) :
    |y - (roundHalfEven y : ℚ)| ≤ 1 / 2 := by
  have hf : (⌊y⌋ : ℚ) ≤ y := Int.floor_le y
  have hf1 : y < (⌊y⌋ : ℚ) + 1 := Int.lt_floor_add_one y
  unfold roundHalfEven
  split_ifs with h1 h2 h3 <;> rw [abs_le] <;> push_cast <;> constructor <;> linarith

/-- When the rounding error is exactly one half, the result is even. -/
theorem roundHalfEven_tie_even (y : ℚ)
    (h : |y - (roundHalfEven y : ℚ)| = 1 / 2) : roundHalfEven y % 2 = 0 := by
  have hf : (⌊y⌋ : ℚ) ≤ y := Int.floor_le y
  have hf1 : y < (⌊y⌋ : ℚ) + 1 := Int.lt_floor_add_one y
  unfold roundHalfEven at h ⊢
  split_ifs at h ⊢ with h1 h2 h3
  · exfalso
    rw [abs_of_nonneg (by linarith)] at h
    linarith
  · exfalso
    rw [abs_of_neg (by push_cast; linarith)] at h
    push_cast at h
    linarith
  · exact h3
  · omega

/-- The rounded value is at least the floor. -/
theorem floor_le_roundHalfEven (y : ℚ) : ⌊y⌋ ≤ roundHalfEven y := by
  rcases roundHalfEven_eq_floor_or y with h | h <;> omega

/-- The rounded value is at most the ceiling. -/
theorem roundHalfEven_le_ceil (y : ℚ) : roundHalfEven y ≤ ⌈y⌉ := by
  have hf : (⌊y⌋ : ℚ) ≤ y := Int.floor_le y
  unfold roundHalfEven
  split_ifs with h1 h2 h3
  · exact Int.floor_le_ceil y
  · have hlt : (⌊y⌋ : ℚ) < y := by linarith
    have := Int.lt_ceil.mpr hlt
    omega
  · exact Int.floor_le_ceil y
  · have hlt : (⌊y⌋ : ℚ) < y := by linarith
    have := Int.lt_ceil.mpr hlt
    omega

/-- The fold keeps the residue class modulo `2^W`. -/
theorem twosFold_emod (qi : ℤ) (fmt : FixedFormat) :
    twosFold qi fmt % fmt.modulus = qi % fmt.modulus := by
  rw [twosFold_def]
  split_ifs with h
  · simp [Int.sub_emod]
  · simp

/-- The fold lands in `[min_int, max_int]` whenever `W ≥ 1`. -/
theorem twosFold_mem (qi : ℤ) (fmt : FixedFormat) (hW : 1 ≤ fmt.W) :
    fmt.min_int ≤ twosFold qi fmt ∧ twosFold qi fmt ≤ fmt.max_int := by
  have hM : fmt.modulus = 2 ^ (fmt.W - 1) * 2 := modulus_eq_two_mul fmt hW
  have hMpos : 0 < fmt.modulus := modulus_pos fmt
  have h0 : 0 ≤ qi % fmt.modulus := Int.emod_nonneg qi (by omega)
  have h1 : qi % fmt.modulus < fmt.modulus := Int.emod_lt_of_pos qi hMpos
  have hP : (0:ℤ) < 2 ^ (fmt.W - 1) := pow_pos (by norm_num) _
  have hMdef : fmt.modulus = 2 ^ fmt.W := rfl
  obtain ⟨W, F, signed⟩ := fmt
  simp only at hM h0 h1 hP hMdef hW ⊢
  rw [twosFold_def]
  unfold FixedFormat.min_int FixedFormat.max_int
  cases signed <;> simp only [Bool.false_eq_true, false_and, if_false,
    eq_self_iff_true, true_and, if_true, Bool.true_eq_false]
  · omega
  · split_ifs with h <;> omega

/-- The fold is the identity on `[min_int, max_int]` whenever `W ≥ 1`. -/
theorem twosFold_eq_self (qi : ℤ) (fmt : FixedFormat) (hW : 1 ≤ fmt.W)
    (hlo : fmt.min_int ≤ qi) (hhi : qi ≤ fmt.max_int) :
    twosFold qi fmt = qi := by
  have hM : fmt.modulus = 2 ^ (fmt.W - 1) * 2 := modulus_eq_two_mul fmt hW
  have hMpos : 0 < fmt.modulus := modulus_pos fmt
  have hP : (0:ℤ) < 2 ^ (fmt.W - 1) := pow_pos (by norm_num) _
  have hMdef : fmt.modulus = 2 ^ fmt.W := rfl
  have hadd : (qi + fmt.modulus) % fmt.modulus = qi % fmt.modulus := by
    have hh : (qi + fmt.modulus * 1) % fmt.modulus = qi % fmt.modulus :=
      Int.add_mul_emod_self_left qi fmt.modulus 1
    rwa [mul_one] at hh
  obtain ⟨W, F, signed⟩ := fmt
  simp only at hM hMpos hP hMdef hW hadd hlo hhi ⊢
  rw [twosFold_def]
  unfold FixedFormat.min_int at hlo
  unfold FixedFormat.max_int at hhi
  cases signed <;> simp only [Bool.false_eq_true, false_and, if_false,
    eq_self_iff_true, true_and, if_true, Bool.true_eq_false] at hlo hhi ⊢
  · exact Int.emod_eq_of_lt hlo (by omega)
  · by_cases hneg : 0 ≤ qi
    · have he : qi % FixedFormat.modulus ⟨W, F, true⟩ = qi :=
        Int.emod_eq_of_lt hneg (by omega)
      rw [he, if_neg (by omega)]
    · have he : qi % FixedFormat.modulus ⟨W, F, true⟩ = qi + FixedFormat.modulus ⟨W, F, true⟩ := by
        rw [← hadd]
        exact Int.emod_eq_of_lt (by omega) (by omega)
      rw [he, if_pos (by omega)]
      omega

/-! Token evaluation and success/failure characterization. -/

/-- Evaluation of `_round_to_int` at the `nearest` token. -/
theorem _round_to_int_nearest (x : ℚ) (fmt : FixedFormat) :
    _round_to_int x fmt "nearest" =
      Except.ok (roundHalfEven (x * (fmt.scale : ℚ))) := rfl

/-- Evaluation of `_round_to_int` at the `floor` token. -/
theorem _round_to_int_floor (x : ℚ) (fmt : FixedFormat) :
    _round_to_int x fmt "floor" = Except.ok ⌊x * (fmt.scale : ℚ)⌋ := rfl

/-- Evaluation of `_round_to_int` at the `ceil` token. -/
theorem _round_to_int_ceil (x : ℚ) (fmt : FixedFormat) :
    _round_to_int x fmt "ceil" = Except.ok ⌈x * (fmt.scale : ℚ)⌉ := rfl

/-- Any other rounding token raises. -/
theorem _round_to_int_invalid (x : ℚ) (fmt : FixedFormat) (r : String)
    (h1 : r ≠ "nearest") (h2 : r ≠ "floor") (h3 : r ≠ "ceil") :
    _round_to_int x fmt r =
      Except.error "rounding must be one of nearest, floor, ceil" := by
  simp only [_round_to_int, if_neg h1, if_neg h2, if_neg h3]

/-- Rounding succeeds exactly on the valid tokens. -/
theorem _round_to_int_ok_iff (x : ℚ) (fmt : FixedFormat) (r : String) :
    (∃ n, _round_to_int x fmt r = Except.ok n) ↔ validRounding r := by
  constructor
  · rintro ⟨n, hn⟩
    by_cases h1 : r = "nearest"
    · exact Or.inl h1
    by_cases h2 : r = "floor"
    · exact Or.inr (Or.inl h2)
    by_cases h3 : r = "ceil"
    · exact Or.inr (Or.inr h3)
    rw [_round_to_int_invalid x fmt r h1 h2 h3] at hn
    exact Except.noConfusion hn
  · rintro (h | h | h) <;> subst h
    · exact ⟨_, _round_to_int_nearest x fmt⟩
    · exact ⟨_, _round_to_int_floor x fmt⟩
    · exact ⟨_, _round_to_int_ceil x fmt⟩

/-- Evaluation of `_apply_overflow` at the `wrap` token. -/
theorem _apply_overflow_wrap (qi : ℤ) (fmt : FixedFormat) :
    _apply_overflow qi fmt "wrap" = Except.ok (twosFold qi fmt) := rfl

/-- Evaluation of `_apply_overflow` at the `saturate` token. -/
theorem _apply_overflow_saturate (qi : ℤ) (fmt : FixedFormat) :
    _apply_overflow qi fmt "saturate" =
      Except.ok (max fmt.min_int (min fmt.max_int qi)) := rfl

/-- Any other overflow token raises. -/
theorem _apply_overflow_invalid (qi : ℤ) (fmt : FixedFormat) (o : String)
    (h1 : o ≠ "wrap") (h2 : o ≠ "saturate") :
    _apply_overflow qi fmt o =
      Except.error "overflow must be wrap or saturate" := by
  simp only [_apply_overflow, if_neg h1, if_neg h2]

/-- Overflow handling succeeds exactly on the valid tokens. -/
theorem _apply_overflow_ok_iff (qi : ℤ) (fmt : FixedFormat) (o : String) :
    (∃ w, _apply_overflow qi fmt o = Except.ok w) ↔ validOverflow o := by
  constructor
  · rintro ⟨w, hw⟩
    by_cases h1 : o = "wrap"
    · exact Or.inl h1
    by_cases h2 : o = "saturate"
    · exact Or.inr h2
    rw [_apply_overflow_invalid qi fmt o h1 h2] at hw
    exact Except.noConfusion hw
  · rintro (h | h) <;> subst h
    · exact ⟨_, _apply_overflow_wrap qi fmt⟩
    · exact ⟨_, _apply_overflow_saturate qi fmt⟩

/-- The clamp used by `saturate` lands in `[min_int, max_int]`. -/
theorem clamp_mem (qi : ℤ) (fmt : FixedFormat) :
    fmt.min_int ≤ max fmt.min_int (min fmt.max_int qi) ∧
      max fmt.min_int (min fmt.max_int qi) ≤ fmt.max_int :=
  ⟨le_max_left _ _, max_le (min_int_le_max_int fmt) (min_le_left _ _)⟩

/-- Any successful overflow constraint lands in `[min_int, max_int]`
whenever `W ≥ 1`. -/
theorem _apply_overflow_mem {qi : ℤ} {fmt : FixedFormat} {o : String} {w : ℤ}
    (hW : 1 ≤ fmt.W) (h : _apply_overflow qi fmt o = Except.ok w) :
    fmt.min_int ≤ w ∧ w ≤ fmt.max_int := by
  by_cases h1 : o = "wrap"
  · subst h1
    rw [_apply_overflow_wrap] at h
    injection h with h
    subst h
    exact twosFold_mem qi fmt hW
  by_cases h2 : o = "saturate"
  · subst h2
    rw [_apply_overflow_saturate] at h
    injection h with h
    subst h
    exact clamp_mem qi fmt
  rw [_apply_overflow_invalid qi fmt o h1 h2] at h
  exact Except.noConfusion h

/-- Inversion for `quantizeInt`. -/
theorem quantizeInt_inv {x : ℚ} {fmt : FixedFormat} {o r : String} {w : ℤ}
    (h : quantizeInt x fmt o r = Except.ok w) :
    ∃ n, _round_to_int x fmt r = Except.ok n ∧
      _apply_overflow n fmt o = Except.ok w := by
  unfold quantizeInt at h
  cases hn : _round_to_int x fmt r with
  | error e =>
    rw [hn] at h
    exact Except.noConfusion h
  | ok n =>
    rw [hn] at h
    exact ⟨n, rfl, h⟩

/-- Construction for `quantizeInt` on valid tokens. -/
theorem quantizeInt_ok (x : ℚ) (fmt : FixedFormat) (o r : String)
    (ho : validOverflow o) (hr : validRounding r) :
    ∃ n w, _round_to_int x fmt r = Except.ok n ∧
      _apply_overflow n fmt o = Except.ok w ∧
      quantizeInt x fmt o r = Except.ok w := by
  obtain ⟨n, hn⟩ := (_round_to_int_ok_iff x fmt r).mpr hr
  obtain ⟨w, hw⟩ := (_apply_overflow_ok_iff n fmt o).mpr ho
  refine ⟨n, w, hn, hw, ?_⟩
  unfold quantizeInt
  rw [hn]
  exact hw

/-- `quantizeInt` succeeds exactly on valid token pairs. -/
theorem quantizeInt_ok_iff (x : ℚ) (fmt : FixedFormat) (o r : String) :
    (∃ w, quantizeInt x fmt o r = Except.ok w) ↔
      validOverflow o ∧ validRounding r := by
  constructor
  · rintro ⟨w, hw⟩
    obtain ⟨n, hn, hap⟩ := quantizeInt_inv hw
    exact ⟨(_apply_overflow_ok_iff n fmt o).mp ⟨w, hap⟩,
      (_round_to_int_ok_iff x fmt r).mp ⟨n, hn⟩⟩
  · rintro ⟨ho, hr⟩
    obtain ⟨n, w, -, -, hq⟩ := quantizeInt_ok x fmt o r ho hr
    exact ⟨w, hq⟩

/-- `quantize` decodes a successful `quantizeInt`. -/
theorem quantize_eq_of_ok {x : ℚ} {fmt : FixedFormat} {o r : String} {w : ℤ}
    (h : quantizeInt x fmt o r = Except.ok w) :
    quantize x fmt o r =
      Except.ok (w, int_to_real w fmt, int_to_hex w fmt) := by
  unfold quantize
  rw [h]

/-- `quantize` propagates a failing `quantizeInt`. -/
theorem quantize_eq_of_error {x : ℚ} {fmt : FixedFormat} {o r : String}
    {e : String} (h : quantizeInt x fmt o r = Except.error e) :
    quantize x fmt o r = Except.error e := by
  unfold quantize
  rw [h]

/-- Inversion for `quantize`. -/
theorem quantize_inv {x : ℚ} {fmt : FixedFormat} {o r : String}
    {p : ℤ × ℚ × String} (h : quantize x fmt o r = Except.ok p) :
    ∃ w, quantizeInt x fmt o r = Except.ok w ∧
      p = (w, int_to_real w fmt, int_to_hex w fmt) := by
  unfold quantize at h
  cases hq : quantizeInt x fmt o r with
  | error e =>
    rw [hq] at h
    exact Except.noConfusion h
  | ok w =>
    rw [hq] at h
    injection h with h
    exact ⟨w, rfl, h.symm⟩

/-- Inversion for `add`. -/
theorem add_inv {a b : ℚ} {fmt : FixedFormat} {o r : String}
    {p : ℤ × ℚ × String} (h : add a b fmt o r = Except.ok p) :
    ∃ ai bi si, quantizeInt a fmt o r = Except.ok ai ∧
      quantizeInt b fmt o r = Except.ok bi ∧
      _apply_overflow (ai + bi) fmt o = Except.ok si ∧
      p = (si, int_to_real si fmt, int_to_hex si fmt) := by
  unfold add at h
  split at h
  · exact Except.noConfusion h
  rename_i ai ha
  split at h
  · exact Except.noConfusion h
  rename_i bi hb
  split at h
  · exact Except.noConfusion h
  rename_i si hs
  injection h with h
  exact ⟨ai, bi, si, ha, hb, hs, h.symm⟩

/-- Construction for `add` on valid tokens. -/
theorem add_ok (a b : ℚ) (fmt : FixedFormat) (o r : String)
    (ho : validOverflow o) (hr : validRounding r) :
    ∃ ai bi si, quantizeInt a fmt o r = Except.ok ai ∧
      quantizeInt b fmt o r = Except.ok bi ∧
      _apply_overflow (ai + bi) fmt o = Except.ok si ∧
      add a b fmt o r =
        Except.ok (si, int_to_real si fmt, int_to_hex si fmt) := by
  obtain ⟨na, ai, hna, hnai, ha⟩ := quantizeInt_ok a fmt o r ho hr
  obtain ⟨nb, bi, hnb, hnbi, hb⟩ := quantizeInt_ok b fmt o r ho hr
  obtain ⟨si, hsi⟩ := (_apply_overflow_ok_iff (ai + bi) fmt o).mpr ho
  refine ⟨ai, bi, si, ha, hb, hsi, ?_⟩
  unfold add
  simp only [ha, hb, hsi]

/-- Inversion for `mul`. -/
theorem mul_inv {a b : ℚ} {fmt : FixedFormat} {o r : String}
    {p : ℤ × ℚ × String} (h : mul a b fmt o r = Except.ok p) :
    ∃ ai bi qi, quantizeInt a fmt o r = Except.ok ai ∧
      quantizeInt b fmt o r = Except.ok bi ∧ fmt.F ≠ 0 ∧
      _apply_overflow (Int.shiftRight
        (if 0 ≤ ai * bi then ai * bi + 2 ^ (fmt.F - 1)
         else ai * bi - 2 ^ (fmt.F - 1)) fmt.F) fmt o = Except.ok qi ∧
      p = (qi, int_to_real qi fmt, int_to_hex qi fmt) := by
  unfold mul at h
  split at h
  · exact Except.noConfusion h
  rename_i ai ha
  split at h
  · exact Except.noConfusion h
  rename_i bi hb
  split at h
  · exact Except.noConfusion h
  rename_i hF
  split at h
  · exact Except.noConfusion h
  rename_i qi hq
  injection h with h
  exact ⟨ai, bi, qi, ha, hb, hF, hq, h.symm⟩

/-- Construction for `mul` on valid tokens when `F ≥ 1`. -/
theorem mul_ok (a b : ℚ) (fmt : FixedFormat) (o r : String)
    (ho : validOverflow o) (hr : validRounding r) (hF : 1 ≤ fmt.F) :
    ∃ ai bi qi, quantizeInt a fmt o r = Except.ok ai ∧
      quantizeInt b fmt o r = Except.ok bi ∧
      _apply_overflow (Int.shiftRight
        (if 0 ≤ ai * bi then ai * bi + 2 ^ (fmt.F - 1)
         else ai * bi - 2 ^ (fmt.F - 1)) fmt.F) fmt o = Except.ok qi ∧
      mul a b fmt o r =
        Except.ok (qi, int_to_real qi fmt, int_to_hex qi fmt) := by
  obtain ⟨na, ai, hna, hnai, ha⟩ := quantizeInt_ok a fmt o r ho hr
  obtain ⟨nb, bi, hnb, hnbi, hb⟩ := quantizeInt_ok b fmt o r ho hr
  obtain ⟨qi, hqi⟩ := (_apply_overflow_ok_iff (Int.shiftRight
    (if 0 ≤ ai * bi then ai * bi + 2 ^ (fmt.F - 1)
     else ai * bi - 2 ^ (fmt.F - 1)) fmt.F) fmt o).mpr ho
  refine ⟨ai, bi, qi, ha, hb, hqi, ?_⟩
  unfold mul
  simp only [ha, hb]
  rw [if_neg (by omega)]
  simp only [hqi]

/-- `mul` fails when `F = 0`, even on valid tokens. -/
theorem mul_error_of_F_eq_zero (a b : ℚ) (fmt : FixedFormat) (o r : String)
    (ho : validOverflow o) (hr : validRounding r) (hF : fmt.F = 0) :
    mul a b fmt o r = Except.error "negative shift count" := by
  obtain ⟨na, ai, hna, hnai, ha⟩ := quantizeInt_ok a fmt o r ho hr
  obtain ⟨nb, bi, hnb, hnbi, hb⟩ := quantizeInt_ok b fmt o r ho hr
  unfold mul
  simp only [ha, hb]
  rw [if_pos hF]

/-- The arithmetic right shift on `ℤ` is floor division by `2^n`,
stated with the natural-number power cast to `ℤ`. -/
theorem shiftRight_eq_fdiv (m : ℤ) (n : ℕ) :
    Int.shiftRight m n = Int.fdiv m ((2 ^ n : ℕ) : ℤ) := by
  obtain ⟨j, hj⟩ : ∃ j, 2 ^ n = j + 1 :=
    ⟨2 ^ n - 1, by have := Nat.two_pow_pos n; omega⟩
  cases m with
  | ofNat k =>
    cases k with
    | zero =>
      show Int.ofNat (0 >>> n) = Int.fdiv (Int.ofNat 0) (Int.ofNat (2 ^ n))
      rw [Nat.zero_shiftRight]
      rfl
    | succ k =>
      show Int.ofNat ((k + 1) >>> n) = Int.fdiv (Int.ofNat (k + 1)) (Int.ofNat (2 ^ n))
      rw [Nat.shiftRight_eq_div_pow]
      rfl
  | negSucc k =>
    show Int.negSucc (k >>> n) = Int.fdiv (Int.negSucc k) (Int.ofNat (2 ^ n))
    rw [hj]
    show Int.negSucc (k >>> n) = Int.negSucc (k / (j + 1))
    rw [Nat.shiftRight_eq_div_pow, hj]

/-- The arithmetic right shift on `ℤ` is floor division by `2^n`. -/
theorem shiftRight_eq_fdiv_pow (m : ℤ) (n : ℕ) :
    Int.shiftRight m n = Int.fdiv m (2 ^ n) := by
  rw [shiftRight_eq_fdiv]
  congr 1
  push_cast
  ring

/-! Claims. -/

/-- C1: for every format, rational input and valid overflow and
rounding tokens, `quantize` returns the triple `(qi, xr, hex)` with
`qi` obtained by `_round_to_int` followed by `_apply_overflow`,
`xr = int_to_real qi` and `hex = int_to_hex qi`; in particular, on
`W=16, F=11, signed`, `quantize 16.25 wrap nearest` returns
`qi = -32256`, `xr = -15.75`, `hex = "0x8200"`. -/
theorem quantize_spec (fmt : FixedFormat) (x : ℚ) (o r : String)
    (ho : validOverflow o) (hr : validRounding r) :
    (∃ n qi, _round_to_int x fmt r = Except.ok n ∧
        _apply_overflow n fmt o = Except.ok qi ∧
        quantize x fmt o r =
          Except.ok (qi, int_to_real qi fmt, int_to_hex qi fmt)) ∧
    quantize (65/4) ⟨16, 11, true⟩ "wrap" "nearest" =
      Except.ok (-32256, -63/4, "0x8200") := by
  constructor
  · obtain ⟨n, w, hn, hw, hq⟩ := quantizeInt_ok x fmt o r ho hr
    exact ⟨n, w, hn, hw, quantize_eq_of_ok hq⟩
  · have hcast : (65/4 : ℚ) * (((⟨16, 11, true⟩ : FixedFormat).scale : ℤ) : ℚ) =
        ((33280 : ℤ) : ℚ) := by
      norm_num [FixedFormat.scale]
    have h1 : _round_to_int (65/4) ⟨16, 11, true⟩ "nearest" = Except.ok 33280 := by
      rw [_round_to_int_nearest, hcast, roundHalfEven_intCast]
    have h2 : _apply_overflow 33280 ⟨16, 11, true⟩ "wrap" = Except.ok (-32256) := by
      decide
    have hq : quantizeInt (65/4) ⟨16, 11, true⟩ "wrap" "nearest" =
        Except.ok (-32256) := by
      unfold quantizeInt
      rw [h1]
      exact h2
    have hmain := quantize_eq_of_ok hq
    have hreal : int_to_real (-32256) ⟨16, 11, true⟩ = -63/4 := by
      unfold int_to_real
      rw [show twosFold (-32256) ⟨16, 11, true⟩ = -32256 from by decide]
      norm_num [FixedFormat.scale]
    have hhex : int_to_hex (-32256) ⟨16, 11, true⟩ = "0x8200" := by decide
    rw [hreal, hhex] at hmain
    exact hmain

/-- Witness for C1: the general statement instantiated at the
wraparound example. -/
theorem quantize_spec_witness :
    (∃ n qi, _round_to_int (65/4) ⟨16, 11, true⟩ "nearest" = Except.ok n ∧
        _apply_overflow n ⟨16, 11, true⟩ "wrap" = Except.ok qi ∧
        quantize (65/4) ⟨16, 11, true⟩ "wrap" "nearest" =
          Except.ok (qi, int_to_real qi ⟨16, 11, true⟩,
            int_to_hex qi ⟨16, 11, true⟩)) ∧
    quantize (65/4) ⟨16, 11, true⟩ "wrap" "nearest" =
      Except.ok (-32256, -63/4, "0x8200") :=
  quantize_spec ⟨16, 11, true⟩ (65/4) "wrap" "nearest" (Or.inl rfl) (Or.inl rfl)

/-- C3: for every format, rational operands and valid tokens, `add`
rounds each operand, overflow-constrains each operand individually,
sums the two constrained integers, overflow-constrains the sum, and
decodes the result to real and hex. -/
theorem add_spec (fmt : FixedFormat) (a b : ℚ) (o r : String)
    (ho : validOverflow o) (hr : validRounding r) :
    ∃ na nb ai bi si,
      _round_to_int a fmt r = Except.ok na ∧
      _apply_overflow na fmt o = Except.ok ai ∧
      _round_to_int b fmt r = Except.ok nb ∧
      _apply_overflow nb fmt o = Except.ok bi ∧
      _apply_overflow (ai + bi) fmt o = Except.ok si ∧
      add a b fmt o r =
        Except.ok (si, int_to_real si fmt, int_to_hex si fmt) := by
  obtain ⟨na, ai, hna, hnai, ha⟩ := quantizeInt_ok a fmt o r ho hr
  obtain ⟨nb, bi, hnb, hnbi, hb⟩ := quantizeInt_ok b fmt o r ho hr
  obtain ⟨si, hsi⟩ := (_apply_overflow_ok_iff (ai + bi) fmt o).mpr ho
  refine ⟨na, nb, ai, bi, si, hna, hnai, hnb, hnbi, hsi, ?_⟩
  unfold add
  simp only [ha, hb, hsi]

/-- Witness for C3 at `add 10 10.5` on the `W=16, F=11` signed format
with wrap and nearest. -/
theorem add_spec_witness :
    ∃ na nb ai bi si,
      _round_to_int 10 ⟨16, 11, true⟩ "nearest" = Except.ok na ∧
      _apply_overflow na ⟨16, 11, true⟩ "wrap" = Except.ok ai ∧
      _round_to_int (21/2) ⟨16, 11, true⟩ "nearest" = Except.ok nb ∧
      _apply_overflow nb ⟨16, 11, true⟩ "wrap" = Except.ok bi ∧
      _apply_overflow (ai + bi) ⟨16, 11, true⟩ "wrap" = Except.ok si ∧
      add 10 (21/2) ⟨16, 11, true⟩ "wrap" "nearest" =
        Except.ok (si, int_to_real si ⟨16, 11, true⟩,
          int_to_hex si ⟨16, 11, true⟩) :=
  add_spec ⟨16, 11, true⟩ 10 (21/2) "wrap" "nearest" (Or.inl rfl) (Or.inl rfl)

/-- C2 counterexample: on a format with `F = 0` and valid tokens, `mul`
does not perform the rescaling pipeline at all — it fails, because the
source evaluates `1 << (F - 1)` with a negative shift count. -/
theorem mul_spec_counterexample :
    validOverflow "wrap" ∧ validRounding "nearest" ∧
    mul 0 0 ⟨4, 0, true⟩ "wrap" "nearest" =
      Except.error "negative shift count" :=
  ⟨Or.inl rfl, Or.inl rfl,
    mul_error_of_F_eq_zero 0 0 ⟨4, 0, true⟩ "wrap" "nearest"
      (Or.inl rfl) (Or.inl rfl) rfl⟩

/-- C2 (amended to formats with `F ≥ 1`): `mul` quantizes and
overflow-constrains each operand, multiplies the stored integers
exactly, adds the bias `2^(F-1)` when the product is non-negative and
subtracts it otherwise, floor-divides the biased product by `2^F`
(the arithmetic right shift), overflow-constrains, and decodes; on
`W=16, F=11` signed with saturate and nearest, `mul 5.5 4` quantizes
the operands to `11264` and `8192` and returns `qi = 32767`
(`xr = 32767/2048`, `hex = "0x7FFF"`). -/
theorem mul_spec (fmt : FixedFormat) (a b : ℚ) (o r : String)
    (ho : validOverflow o) (hr : validRounding r) (hF : 1 ≤ fmt.F) :
    (∃ na nb ai bi qi,
      _round_to_int a fmt r = Except.ok na ∧
      _apply_overflow na fmt o = Except.ok ai ∧
      _round_to_int b fmt r = Except.ok nb ∧
      _apply_overflow nb fmt o = Except.ok bi ∧
      _apply_overflow (Int.fdiv
        (if 0 ≤ ai * bi then ai * bi + 2 ^ (fmt.F - 1)
         else ai * bi - 2 ^ (fmt.F - 1)) (2 ^ fmt.F)) fmt o = Except.ok qi ∧
      mul a b fmt o r =
        Except.ok (qi, int_to_real qi fmt, int_to_hex qi fmt)) ∧
    (quantizeInt (11/2) ⟨16, 11, true⟩ "saturate" "nearest" = Except.ok 11264 ∧
     quantizeInt 4 ⟨16, 11, true⟩ "saturate" "nearest" = Except.ok 8192 ∧
     mul (11/2) 4 ⟨16, 11, true⟩ "saturate" "nearest" =
       Except.ok (32767, 32767/2048, "0x7FFF")) := by
  constructor
  · obtain ⟨na, ai, hna, hnai, ha⟩ := quantizeInt_ok a fmt o r ho hr
    obtain ⟨nb, bi, hnb, hnbi, hb⟩ := quantizeInt_ok b fmt o r ho hr
    obtain ⟨qi, hqi⟩ := (_apply_overflow_ok_iff (Int.shiftRight
      (if 0 ≤ ai * bi then ai * bi + 2 ^ (fmt.F - 1)
       else ai * bi - 2 ^ (fmt.F - 1)) fmt.F) fmt o).mpr ho
    refine ⟨na, nb, ai, bi, qi, hna, hnai, hnb, hnbi, ?_, ?_⟩
    · rw [← shiftRight_eq_fdiv_pow]
      exact hqi
    · unfold mul
      simp only [ha, hb]
      rw [if_neg (by omega)]
      simp only [hqi]
  · have hcast1 : (11/2 : ℚ) * (((⟨16, 11, true⟩ : FixedFormat).scale : ℤ) : ℚ) =
        ((11264 : ℤ) : ℚ) := by
      norm_num [FixedFormat.scale]
    have ha1 : _round_to_int (11/2) ⟨16, 11, true⟩ "nearest" = Except.ok 11264 := by
      rw [_round_to_int_nearest, hcast1, roundHalfEven_intCast]
    have hcast2 : (4 : ℚ) * (((⟨16, 11, true⟩ : FixedFormat).scale : ℤ) : ℚ) =
        ((8192 : ℤ) : ℚ) := by
      norm_num [FixedFormat.scale]
    have hb1 : _round_to_int 4 ⟨16, 11, true⟩ "nearest" = Except.ok 8192 := by
      rw [_round_to_int_nearest, hcast2, roundHalfEven_intCast]
    have ha2 : quantizeInt (11/2) ⟨16, 11, true⟩ "saturate" "nearest" =
        Except.ok 11264 := by
      unfold quantizeInt
      rw [ha1]
      decide
    have hb2 : quantizeInt 4 ⟨16, 11, true⟩ "saturate" "nearest" =
        Except.ok 8192 := by
      unfold quantizeInt
      rw [hb1]
      decide
    refine ⟨ha2, hb2, ?_⟩
    have hap : _apply_overflow (Int.shiftRight
        (if 0 ≤ (11264 : ℤ) * 8192
         then (11264 : ℤ) * 8192 + 2 ^ ((⟨16, 11, true⟩ : FixedFormat).F - 1)
         else (11264 : ℤ) * 8192 - 2 ^ ((⟨16, 11, true⟩ : FixedFormat).F - 1))
        (⟨16, 11, true⟩ : FixedFormat).F) ⟨16, 11, true⟩ "saturate" =
        Except.ok 32767 := by decide
    have hreal : int_to_real 32767 ⟨16, 11, true⟩ = 32767/2048 := by
      unfold int_to_real
      rw [show twosFold 32767 ⟨16, 11, true⟩ = 32767 from by decide]
      norm_num [FixedFormat.scale]
    have hhex : int_to_hex 32767 ⟨16, 11, true⟩ = "0x7FFF" := by decide
    unfold mul
    simp only [ha2, hb2]
    rw [if_neg (by decide)]
    simp only [hap, hreal, hhex]

/-- Witness for C2 (amended) at the saturating multiplication example
format. -/
theorem mul_spec_witness :
    (∃ na nb ai bi qi,
      _round_to_int (11/2) ⟨16, 11, true⟩ "nearest" = Except.ok na ∧
      _apply_overflow na ⟨16, 11, true⟩ "saturate" = Except.ok ai ∧
      _round_to_int 4 ⟨16, 11, true⟩ "nearest" = Except.ok nb ∧
      _apply_overflow nb ⟨16, 11, true⟩ "saturate" = Except.ok bi ∧
      _apply_overflow (Int.fdiv
        (if 0 ≤ ai * bi then ai * bi + 2 ^ ((⟨16, 11, true⟩ : FixedFormat).F - 1)
         else ai * bi - 2 ^ ((⟨16, 11, true⟩ : FixedFormat).F - 1))
        (2 ^ (⟨16, 11, true⟩ : FixedFormat).F)) ⟨16, 11, true⟩ "saturate" =
        Except.ok qi ∧
      mul (11/2) 4 ⟨16, 11, true⟩ "saturate" "nearest" =
        Except.ok (qi, int_to_real qi ⟨16, 11, true⟩,
          int_to_hex qi ⟨16, 11, true⟩)) ∧
    (quantizeInt (11/2) ⟨16, 11, true⟩ "saturate" "nearest" = Except.ok 11264 ∧
     quantizeInt 4 ⟨16, 11, true⟩ "saturate" "nearest" = Except.ok 8192 ∧
     mul (11/2) 4 ⟨16, 11, true⟩ "saturate" "nearest" =
       Except.ok (32767, 32767/2048, "0x7FFF")) :=
  mul_spec ⟨16, 11, true⟩ (11/2) 4 "saturate" "nearest"
    (Or.inr rfl) (Or.inl rfl) (by decide)

/-- C4: for every format with `W ≥ 1` and every integer `qi`, wrap
overflow reduces `qi` modulo `2^W` with Euclidean (non-negative)
remainder semantics, then subtracts `2^W` when signed and the remainder
is at least `2^(W-1)`, and the result lies in the two's-complement
range `[min_int, max_int]` and keeps the residue class of `qi`. -/
theorem apply_overflow_wrap_spec (fmt : FixedFormat) (qi : ℤ)
    (hW : 1 ≤ fmt.W) :
    ∃ m w, m = qi % fmt.modulus ∧ 0 ≤ m ∧ m < fmt.modulus ∧
      _apply_overflow qi fmt "wrap" = Except.ok w ∧
      w = (if fmt.signed = true ∧ 2 ^ (fmt.W - 1) ≤ m
           then m - fmt.modulus else m) ∧
      w % fmt.modulus = qi % fmt.modulus ∧
      fmt.min_int ≤ w ∧ w ≤ fmt.max_int := by
  obtain ⟨hmem1, hmem2⟩ := twosFold_mem qi fmt hW
  exact ⟨qi % fmt.modulus, twosFold qi fmt, rfl,
    Int.emod_nonneg qi (by have := modulus_pos fmt; omega),
    Int.emod_lt_of_pos qi (modulus_pos fmt),
    _apply_overflow_wrap qi fmt, twosFold_def qi fmt,
    twosFold_emod qi fmt, hmem1, hmem2⟩

/-- Witness for C4 at `qi = -5` on the `W=16, F=11` signed format. -/
theorem apply_overflow_wrap_spec_witness :
    ∃ m w, m = (-5 : ℤ) % (⟨16, 11, true⟩ : FixedFormat).modulus ∧
      0 ≤ m ∧ m < (⟨16, 11, true⟩ : FixedFormat).modulus ∧
      _apply_overflow (-5) ⟨16, 11, true⟩ "wrap" = Except.ok w ∧
      w = (if (⟨16, 11, true⟩ : FixedFormat).signed = true ∧
             2 ^ ((⟨16, 11, true⟩ : FixedFormat).W - 1) ≤ m
           then m - (⟨16, 11, true⟩ : FixedFormat).modulus else m) ∧
      w % (⟨16, 11, true⟩ : FixedFormat).modulus =
        (-5 : ℤ) % (⟨16, 11, true⟩ : FixedFormat).modulus ∧
      (⟨16, 11, true⟩ : FixedFormat).min_int ≤ w ∧
      w ≤ (⟨16, 11, true⟩ : FixedFormat).max_int :=
  apply_overflow_wrap_spec ⟨16, 11, true⟩ (-5) (by decide)

/-- C5: for every format with `W ≥ 1`, saturate overflow clamps the
integer into `[min_int, max_int]`; consequently quantizing
`max_real + resolution` with saturate and nearest stores exactly
`max_int`, and symmetrically for the minimum. -/
theorem apply_overflow_saturate_spec (fmt : FixedFormat) (qi : ℤ)
    (hW : 1 ≤ fmt.W) :
    _apply_overflow qi fmt "saturate" =
      Except.ok (max fmt.min_int (min fmt.max_int qi)) ∧
    (∃ xr hex, quantize (fmt.max_real + fmt.resolution) fmt
        "saturate" "nearest" = Except.ok (fmt.max_int, xr, hex)) ∧
    (∃ xr hex, quantize (fmt.min_real - fmt.resolution) fmt
        "saturate" "nearest" = Except.ok (fmt.min_int, xr, hex)) := by
  have hs0 : ((fmt.scale : ℤ) : ℚ) ≠ 0 := by
    have := scale_pos fmt
    exact Int.cast_ne_zero.mpr (by omega)
  have hminmax := min_int_le_max_int fmt
  refine ⟨_apply_overflow_saturate qi fmt, ?_, ?_⟩
  · have hy : (fmt.max_real + fmt.resolution) * (fmt.scale : ℚ) =
        ((fmt.max_int + 1 : ℤ) : ℚ) := by
      unfold FixedFormat.max_real FixedFormat.resolution
      rw [div_add_div_same, div_mul_cancel₀ _ hs0]
      push_cast
      ring
    have h1 : _round_to_int (fmt.max_real + fmt.resolution) fmt "nearest" =
        Except.ok (fmt.max_int + 1) := by
      rw [_round_to_int_nearest, hy, roundHalfEven_intCast]
    have h2 : _apply_overflow (fmt.max_int + 1) fmt "saturate" =
        Except.ok fmt.max_int := by
      rw [_apply_overflow_saturate, min_eq_left (by omega),
        max_eq_right hminmax]
    have hq : quantizeInt (fmt.max_real + fmt.resolution) fmt
        "saturate" "nearest" = Except.ok fmt.max_int := by
      unfold quantizeInt
      rw [h1]
      exact h2
    exact ⟨_, _, quantize_eq_of_ok hq⟩
  · have hy : (fmt.min_real - fmt.resolution) * (fmt.scale : ℚ) =
        ((fmt.min_int - 1 : ℤ) : ℚ) := by
      unfold FixedFormat.min_real FixedFormat.resolution
      rw [div_sub_div_same, div_mul_cancel₀ _ hs0]
      push_cast
      ring
    have h1 : _round_to_int (fmt.min_real - fmt.resolution) fmt "nearest" =
        Except.ok (fmt.min_int - 1) := by
      rw [_round_to_int_nearest, hy, roundHalfEven_intCast]
    have h2 : _apply_overflow (fmt.min_int - 1) fmt "saturate" =
        Except.ok fmt.min_int := by
      rw [_apply_overflow_saturate, min_eq_right (by omega),
        max_eq_left (by omega)]
    have hq : quantizeInt (fmt.min_real - fmt.resolution) fmt
        "saturate" "nearest" = Except.ok fmt.min_int := by
      unfold quantizeInt
      rw [h1]
      exact h2
    exact ⟨_, _, quantize_eq_of_ok hq⟩

/-- Witness for C5 at `qi = 40000` on the `W=16, F=11` signed format. -/
theorem apply_overflow_saturate_spec_witness :
    _apply_overflow 40000 ⟨16, 11, true⟩ "saturate" =
      Except.ok (max (⟨16, 11, true⟩ : FixedFormat).min_int
        (min (⟨16, 11, true⟩ : FixedFormat).max_int 40000)) ∧
    (∃ xr hex, quantize ((⟨16, 11, true⟩ : FixedFormat).max_real +
        (⟨16, 11, true⟩ : FixedFormat).resolution) ⟨16, 11, true⟩
        "saturate" "nearest" =
        Except.ok ((⟨16, 11, true⟩ : FixedFormat).max_int, xr, hex)) ∧
    (∃ xr hex, quantize ((⟨16, 11, true⟩ : FixedFormat).min_real -
        (⟨16, 11, true⟩ : FixedFormat).resolution) ⟨16, 11, true⟩
        "saturate" "nearest" =
        Except.ok ((⟨16, 11, true⟩ : FixedFormat).min_int, xr, hex)) :=
  apply_overflow_saturate_spec ⟨16, 11, true⟩ 40000 (by decide)

/-- C7: for every format and rational input, the `nearest` rounding
returns `x * 2^F` rounded to the nearest integer, and an exact
half-way tie rounds to the nearest even integer. -/
theorem round_nearest_spec (fmt : FixedFormat) (x : ℚ) :
    ∃ n, _round_to_int x fmt "nearest" = Except.ok n ∧
      |x * (fmt.scale : ℚ) - (n : ℚ)| ≤ 1 / 2 ∧
      (|x * (fmt.scale : ℚ) - (n : ℚ)| = 1 / 2 → n % 2 = 0) :=
  ⟨roundHalfEven (x * (fmt.scale : ℚ)), _round_to_int_nearest x fmt,
    abs_roundHalfEven_sub_le (x * (fmt.scale : ℚ)),
    roundHalfEven_tie_even (x * (fmt.scale : ℚ))⟩

/-- C6 counterexample: on the format `W=1, F=0` (which satisfies
`W ≥ 1` and `0 ≤ F < W`) and valid tokens, `mul` fails even though both
tokens are valid, contradicting the claim that failure happens exactly
on invalid tokens. -/
theorem ops_ok_iff_counterexample :
    1 ≤ (⟨1, 0, true⟩ : FixedFormat).W ∧
    (⟨1, 0, true⟩ : FixedFormat).F < (⟨1, 0, true⟩ : FixedFormat).W ∧
    validOverflow "saturate" ∧ validRounding "floor" ∧
    mul 1 1 ⟨1, 0, true⟩ "saturate" "floor" =
      Except.error "negative shift count" :=
  ⟨by decide, by decide, Or.inr rfl, Or.inr (Or.inl rfl),
    mul_error_of_F_eq_zero 1 1 ⟨1, 0, true⟩ "saturate" "floor"
      (Or.inr rfl) (Or.inr (Or.inl rfl)) rfl⟩

/-- C6 (amended): for formats with `W ≥ 1` and `0 ≤ F < W`, `quantize`
and `add` succeed exactly when both tokens are valid, while `mul`
additionally requires `F ≥ 1` — with `F = 0` it fails even on valid
tokens, because the source evaluates `1 << (F - 1)`. -/
theorem ops_ok_iff (fmt : FixedFormat) (x a b c d : ℚ) (o r : String)
    (hW : 1 ≤ fmt.W) (hF : fmt.F < fmt.W) :
    ((∃ t, quantize x fmt o r = Except.ok t) ↔
      (validOverflow o ∧ validRounding r)) ∧
    ((∃ t, add a b fmt o r = Except.ok t) ↔
      (validOverflow o ∧ validRounding r)) ∧
    ((∃ t, mul c d fmt o r = Except.ok t) ↔
      (validOverflow o ∧ validRounding r ∧ 1 ≤ fmt.F)) := by
  refine ⟨⟨?_, ?_⟩, ⟨?_, ?_⟩, ⟨?_, ?_⟩⟩
  · rintro ⟨t, ht⟩
    obtain ⟨w, hw, -⟩ := quantize_inv ht
    exact (quantizeInt_ok_iff x fmt o r).mp ⟨w, hw⟩
  · rintro ⟨ho, hr⟩
    obtain ⟨w, hw⟩ := (quantizeInt_ok_iff x fmt o r).mpr ⟨ho, hr⟩
    exact ⟨_, quantize_eq_of_ok hw⟩
  · rintro ⟨t, ht⟩
    obtain ⟨ai, bi, si, hai, -, -, -⟩ := add_inv ht
    exact (quantizeInt_ok_iff a fmt o r).mp ⟨ai, hai⟩
  · rintro ⟨ho, hr⟩
    obtain ⟨ai, bi, si, -, -, -, hadd⟩ := add_ok a b fmt o r ho hr
    exact ⟨_, hadd⟩
  · rintro ⟨t, ht⟩
    obtain ⟨ai, bi, qi, hai, -, hFne, -, -⟩ := mul_inv ht
    obtain ⟨ho, hr⟩ := (quantizeInt_ok_iff c fmt o r).mp ⟨ai, hai⟩
    exact ⟨ho, hr, by omega⟩
  · rintro ⟨ho, hr, hF1⟩
    obtain ⟨ai, bi, qi, -, -, -, hmul⟩ := mul_ok c d fmt o r ho hr hF1
    exact ⟨_, hmul⟩

/-- Witness for C6 (amended) on the `W=16, F=11` signed format with the
wrap and nearest tokens. -/
theorem ops_ok_iff_witness :
    ((∃ t, quantize (1/3) ⟨16, 11, true⟩ "wrap" "nearest" = Except.ok t) ↔
      (validOverflow "wrap" ∧ validRounding "nearest")) ∧
    ((∃ t, add (1/3) (2/3) ⟨16, 11, true⟩ "wrap" "nearest" = Except.ok t) ↔
      (validOverflow "wrap" ∧ validRounding "nearest")) ∧
    ((∃ t, mul (1/3) (2/3) ⟨16, 11, true⟩ "wrap" "nearest" = Except.ok t) ↔
      (validOverflow "wrap" ∧ validRounding "nearest" ∧
        1 ≤ (⟨16, 11, true⟩ : FixedFormat).F)) :=
  ops_ok_iff ⟨16, 11, true⟩ (1/3) (1/3) (2/3) (1/3) (2/3) "wrap" "nearest"
    (by decide) (by decide)

/-- C8 counterexample: on the `W=16, F=11` signed format and the stored
integer `qi = 33280 ∈ [0, 2^16)`, decoding with `int_to_real` and
re-quantizing with wrap and nearest returns first component `-32256`,
not `33280`. -/
theorem wrap_roundtrip_counterexample :
    (0 : ℤ) ≤ 33280 ∧
    (33280 : ℤ) < (⟨16, 11, true⟩ : FixedFormat).modulus ∧
    (∃ xr hex, quantize (int_to_real 33280 ⟨16, 11, true⟩) ⟨16, 11, true⟩
        "wrap" "nearest" = Except.ok (-32256, xr, hex)) ∧
    (-32256 : ℤ) ≠ 33280 := by
  refine ⟨by decide, by decide, ?_, by decide⟩
  have hir : int_to_real 33280 ⟨16, 11, true⟩ = -63/4 := by
    unfold int_to_real
    rw [show twosFold 33280 ⟨16, 11, true⟩ = -32256 from by decide]
    norm_num [FixedFormat.scale]
  rw [hir]
  have hcast : (-63/4 : ℚ) * (((⟨16, 11, true⟩ : FixedFormat).scale : ℤ) : ℚ) =
      ((-32256 : ℤ) : ℚ) := by
    norm_num [FixedFormat.scale]
  have h1 : _round_to_int (-63/4) ⟨16, 11, true⟩ "nearest" =
      Except.ok (-32256) := by
    rw [_round_to_int_nearest, hcast, roundHalfEven_intCast]
  have hq : quantizeInt (-63/4) ⟨16, 11, true⟩ "wrap" "nearest" =
      Except.ok (-32256) := by
    unfold quantizeInt
    rw [h1]
    decide
  exact ⟨_, _, quantize_eq_of_ok hq⟩

/-- C8 (amended): for every format with `W ≥ 1` and integer
`qi ∈ [0, 2^W)`, decoding with `int_to_real` and re-quantizing with
wrap and nearest returns as first component the two's-complement fold
of `qi`: it is congruent to `qi` modulo `2^W`, equals `qi` itself
unless the format is signed and `qi ≥ 2^(W-1)`, and equals `qi - 2^W`
in that remaining case. -/
theorem wrap_roundtrip (fmt : FixedFormat) (qi : ℤ) (hW : 1 ≤ fmt.W)
    (h0 : 0 ≤ qi) (h1 : qi < fmt.modulus) :
    ∃ xr hex, quantize (int_to_real qi fmt) fmt "wrap" "nearest" =
        Except.ok (twosFold qi fmt, xr, hex) ∧
      twosFold qi fmt % fmt.modulus = qi % fmt.modulus ∧
      (¬ (fmt.signed = true ∧ 2 ^ (fmt.W - 1) ≤ qi) → twosFold qi fmt = qi) ∧
      (fmt.signed = true → 2 ^ (fmt.W - 1) ≤ qi →
        twosFold qi fmt = qi - fmt.modulus) := by
  have hqm : qi % fmt.modulus = qi := Int.emod_eq_of_lt h0 h1
  have hy : int_to_real qi fmt * (fmt.scale : ℚ) =
      ((twosFold qi fmt : ℤ) : ℚ) := by
    unfold int_to_real
    rw [div_mul_cancel₀]
    exact Int.cast_ne_zero.mpr (by have := scale_pos fmt; omega)
  have hr1 : _round_to_int (int_to_real qi fmt) fmt "nearest" =
      Except.ok (twosFold qi fmt) := by
    rw [_round_to_int_nearest, hy, roundHalfEven_intCast]
  obtain ⟨hm1, hm2⟩ := twosFold_mem qi fmt hW
  have hfold : twosFold (twosFold qi fmt) fmt = twosFold qi fmt :=
    twosFold_eq_self _ fmt hW hm1 hm2
  have hq : quantizeInt (int_to_real qi fmt) fmt "wrap" "nearest" =
      Except.ok (twosFold qi fmt) := by
    unfold quantizeInt
    rw [hr1]
    show _apply_overflow (twosFold qi fmt) fmt "wrap" =
      Except.ok (twosFold qi fmt)
    rw [_apply_overflow_wrap, hfold]
  refine ⟨_, _, quantize_eq_of_ok hq, twosFold_emod qi fmt, ?_, ?_⟩
  · intro hcon
    rw [twosFold_def, hqm, if_neg hcon]
  · intro hs hge
    rw [twosFold_def, hqm, if_pos ⟨hs, hge⟩]

/-- Witness for C8 (amended) at `qi = 33280` on the `W=16, F=11` signed
format. -/
theorem wrap_roundtrip_witness :
    ∃ xr hex, quantize (int_to_real 33280 ⟨16, 11, true⟩) ⟨16, 11, true⟩
        "wrap" "nearest" =
        Except.ok (twosFold 33280 ⟨16, 11, true⟩, xr, hex) ∧
      twosFold 33280 ⟨16, 11, true⟩ % (⟨16, 11, true⟩ : FixedFormat).modulus =
        (33280 : ℤ) % (⟨16, 11, true⟩ : FixedFormat).modulus ∧
      (¬ ((⟨16, 11, true⟩ : FixedFormat).signed = true ∧
          2 ^ ((⟨16, 11, true⟩ : FixedFormat).W - 1) ≤ (33280 : ℤ)) →
        twosFold 33280 ⟨16, 11, true⟩ = 33280) ∧
      ((⟨16, 11, true⟩ : FixedFormat).signed = true →
        2 ^ ((⟨16, 11, true⟩ : FixedFormat).W - 1) ≤ (33280 : ℤ) →
        twosFold 33280 ⟨16, 11, true⟩ =
          33280 - (⟨16, 11, true⟩ : FixedFormat).modulus) :=
  wrap_roundtrip ⟨16, 11, true⟩ 33280 (by decide) (by decide) (by decide)

/-- C9: for every format with `W ≥ 1` and every rational `x` in
`[min_real, max_real]`, the decoded real component of
`quantize x wrap nearest` is within `resolution / 2` of `x`. -/
theorem quantize_error_bound (fmt : FixedFormat) (x : ℚ) (hW : 1 ≤ fmt.W)
    (hlo : fmt.min_real ≤ x) (hhi : x ≤ fmt.max_real) :
    ∃ qi hex, quantize x fmt "wrap" "nearest" =
        Except.ok (qi, int_to_real qi fmt, hex) ∧
      |int_to_real qi fmt - x| ≤ fmt.resolution / 2 := by
  have hsc : (0 : ℚ) < ((fmt.scale : ℤ) : ℚ) := by
    exact_mod_cast scale_pos fmt
  have hy1 : (fmt.min_int : ℚ) ≤ x * (fmt.scale : ℚ) := by
    unfold FixedFormat.min_real at hlo
    rw [div_le_iff hsc] at hlo
    exact hlo
  have hy2 : x * (fmt.scale : ℚ) ≤ (fmt.max_int : ℚ) := by
    unfold FixedFormat.max_real at hhi
    rw [le_div_iff hsc] at hhi
    exact hhi
  have hn1 : fmt.min_int ≤ roundHalfEven (x * (fmt.scale : ℚ)) :=
    le_trans (Int.le_floor.mpr hy1) (floor_le_roundHalfEven _)
  have hn2 : roundHalfEven (x * (fmt.scale : ℚ)) ≤ fmt.max_int :=
    le_trans (roundHalfEven_le_ceil _) (Int.ceil_le.mpr hy2)
  have hfold : twosFold (roundHalfEven (x * (fmt.scale : ℚ))) fmt =
      roundHalfEven (x * (fmt.scale : ℚ)) :=
    twosFold_eq_self _ fmt hW hn1 hn2
  have hq : quantizeInt x fmt "wrap" "nearest" =
      Except.ok (roundHalfEven (x * (fmt.scale : ℚ))) := by
    unfold quantizeInt
    rw [_round_to_int_nearest]
    show _apply_overflow (roundHalfEven (x * (fmt.scale : ℚ))) fmt "wrap" = _
    rw [_apply_overflow_wrap, hfold]
  refine ⟨_, _, quantize_eq_of_ok hq, ?_⟩
  have hir : int_to_real (roundHalfEven (x * (fmt.scale : ℚ))) fmt =
      ((roundHalfEven (x * (fmt.scale : ℚ)) : ℤ) : ℚ) / (fmt.scale : ℚ) := by
    unfold int_to_real
    rw [hfold]
  rw [hir]
  have habs : |((roundHalfEven (x * (fmt.scale : ℚ)) : ℤ) : ℚ) -
      x * (fmt.scale : ℚ)| ≤ 1 / 2 := by
    rw [abs_sub_comm]
    exact abs_roundHalfEven_sub_le _
  have hsplit : ((roundHalfEven (x * (fmt.scale : ℚ)) : ℤ) : ℚ) /
        (fmt.scale : ℚ) - x =
      (((roundHalfEven (x * (fmt.scale : ℚ)) : ℤ) : ℚ) -
        x * (fmt.scale : ℚ)) / (fmt.scale : ℚ) := by
    field_simp
    ring
  rw [hsplit, abs_div, abs_of_pos hsc]
  have hres : fmt.resolution / 2 = (1 / 2) / ((fmt.scale : ℤ) : ℚ) := by
    unfold FixedFormat.resolution
    ring
  rw [hres]
  gcongr

/-- Witness for C9 at `x = 1/3` on the `W=16, F=11` signed format. -/
theorem quantize_error_bound_witness :
    (⟨16, 11, true⟩ : FixedFormat).min_real ≤ (1/3 : ℚ) ∧
    (1/3 : ℚ) ≤ (⟨16, 11, true⟩ : FixedFormat).max_real ∧
    ∃ qi hex, quantize (1/3) ⟨16, 11, true⟩ "wrap" "nearest" =
        Except.ok (qi, int_to_real qi ⟨16, 11, true⟩, hex) ∧
      |int_to_real qi ⟨16, 11, true⟩ - 1/3| ≤
        (⟨16, 11, true⟩ : FixedFormat).resolution / 2 := by
  have hlo : (⟨16, 11, true⟩ : FixedFormat).min_real ≤ (1/3 : ℚ) := by
    norm_num [FixedFormat.min_real, FixedFormat.min_int, FixedFormat.scale]
  have hhi : (1/3 : ℚ) ≤ (⟨16, 11, true⟩ : FixedFormat).max_real := by
    norm_num [FixedFormat.max_real, FixedFormat.max_int, FixedFormat.scale]
  exact ⟨hlo, hhi,
    quantize_error_bound ⟨16, 11, true⟩ (1/3) (by decide) hlo hhi⟩

/-- C10: for every format with `W ≥ 1` and `0 ≤ F < W`, valid tokens,
and any rational inputs, the stored-integer component returned by a
successful `quantize`, `add` or `mul` lies in `[min_int, max_int]`. -/
theorem results_in_range (fmt : FixedFormat) (x a b c d : ℚ) (o r : String)
    (hW : 1 ≤ fmt.W) (hF : fmt.F < fmt.W)
    (ho : validOverflow o) (hr : validRounding r) :
    (∀ p, quantize x fmt o r = Except.ok p →
      fmt.min_int ≤ p.1 ∧ p.1 ≤ fmt.max_int) ∧
    (∀ p, add a b fmt o r = Except.ok p →
      fmt.min_int ≤ p.1 ∧ p.1 ≤ fmt.max_int) ∧
    (∀ p, mul c d fmt o r = Except.ok p →
      fmt.min_int ≤ p.1 ∧ p.1 ≤ fmt.max_int) := by
  refine ⟨?_, ?_, ?_⟩
  · intro p hp
    obtain ⟨w, hw, hpw⟩ := quantize_inv hp
    obtain ⟨n, -, hap⟩ := quantizeInt_inv hw
    have hmem := _apply_overflow_mem hW hap
    rw [hpw]
    exact hmem
  · intro p hp
    obtain ⟨ai, bi, si, -, -, hs, hpw⟩ := add_inv hp
    have hmem := _apply_overflow_mem hW hs
    rw [hpw]
    exact hmem
  · intro p hp
    obtain ⟨ai, bi, qi, -, -, -, hqq, hpw⟩ := mul_inv hp
    have hmem := _apply_overflow_mem hW hqq
    rw [hpw]
    exact hmem

/-- Witness for C10 on the `W=16, F=11` signed format with saturate
and ceil. -/
theorem results_in_range_witness :
    (∀ p, quantize 100 ⟨16, 11, true⟩ "saturate" "ceil" = Except.ok p →
      (⟨16, 11, true⟩ : FixedFormat).min_int ≤ p.1 ∧
        p.1 ≤ (⟨16, 11, true⟩ : FixedFormat).max_int) ∧
    (∀ p, add 100 (-200) ⟨16, 11, true⟩ "saturate" "ceil" = Except.ok p →
      (⟨16, 11, true⟩ : FixedFormat).min_int ≤ p.1 ∧
        p.1 ≤ (⟨16, 11, true⟩ : FixedFormat).max_int) ∧
    (∀ p, mul 100 (-200) ⟨16, 11, true⟩ "saturate" "ceil" = Except.ok p →
      (⟨16, 11, true⟩ : FixedFormat).min_int ≤ p.1 ∧
        p.1 ≤ (⟨16, 11, true⟩ : FixedFormat).max_int) :=
  results_in_range ⟨16, 11, true⟩ 100 100 (-200) 100 (-200) "saturate" "ceil"
    (by decide) (by decide) (Or.inr rfl) (Or.inr (Or.inr rfl))

end FixedPoint
